import Mathlib

/-!
Verification of the s-expression decoder (ch12/ex10/decode.go).

The decoder is embedded shallowly: the token stream delivered by the
text/scanner wrapper is a list of tokens (the empty list is end of
input, which the scanner reports indefinitely once reached), a
reflect.Value is a shape (Ty) together with a current value (Val), and
the panic/recover error discipline is an Except monad. The mutually
recursive read/readList engine carries an explicit fuel argument so
that it is a total, executable function; the public API supplies a
fuel that strictly dominates the recursion depth, and fuel exhaustion
is a distinguished error that the theorems below never rely on.
-/

namespace Sexpr

/-- Lexical token as delivered by the token scanner. A quoted-string
token carries its unquoted content (strconv.Unquote of the raw text);
an integer token carries its parsed value; a float token keeps its raw
literal text, since nothing in the claims depends on float arithmetic. -/
inductive Tok where
  | ident (s : String)
  | str (s : String)
  | int (n : Int)
  | float (s : String)
  | lparen
  | rparen
deriving DecidableEq, Repr

/-- Runtime shape of a destination, the image of reflect.Kind as
dispatched on by readList. A record carries its field table in
declaration order. -/
inductive Ty where
  | int
  | uint
  | float
  | bool
  | str
  | array (n : Nat) (elem : Ty)
  | slice (elem : Ty)
  | struct (fields : List (String × Ty))
  | map (key elem : Ty)
  | iface
deriving Repr

/-- Decoded value; a destination's value always matches its shape. Map
contents are modelled as an association list in insertion order (Go
maps are unordered; the list fixes a canonical order). Float values are
kept as literal text. An interface value is nil or a typed value. -/
inductive Val where
  | vint (n : Int)
  | vuint (n : Int)
  | vfloat (s : String)
  | vbool (b : Bool)
  | vstr (s : String)
  | varr (elems : List Val)
  | vslice (elems : List Val)
  | vstruct (fields : List (String × Val))
  | vmap (entries : List (Val × Val))
  | vnilIface
  | viface (t : Ty) (v : Val)
deriving Repr

/-- A reflect.Value: either the invalid zero Value (what FieldByName
returns for a missing field) or a typed value. -/
inductive RVal where
  | invalid
  | mk (t : Ty) (v : Val)
deriving Repr

/-- Fatal decode conditions. In the source these are panics recovered
at the API boundary; panics raised inside the reflect library (Set*
kind mismatches, any operation on the invalid Value, Index past an
array's length, MapOf on an invalid key type, ArrayOf on a negative
count) and string indexing/slicing panics inside asType are modelled
as distinct error values. outOfFuel is an artifact of the explicit
recursion bound and is unreachable for the fuel the API supplies. -/
inductive Err where
  | outOfFuel
  | unexpectedTok (t : Option Tok)
  | consumeMismatch (got : Option Tok) (want : Tok)
  | fieldNameExpected (got : Option Tok)
  | invalidValue
  | setKindMismatch
  | indexOutOfRange
  | cannotDecode (t : Ty)
  | unknownType (descr : List Char)
  | strIndexPanic
  | strSlicePanic
  | reflectPanic
  | eof
deriving Repr

mutual
/-- Structural equality of shapes (reflect type identity). -/
def Ty.beq : Ty → Ty → Bool
  | .int, .int => true
  | .uint, .uint => true
  | .float, .float => true
  | .bool, .bool => true
  | .str, .str => true
  | .array n t, .array m u => n == m && Ty.beq t u
  | .slice t, .slice u => Ty.beq t u
  | .struct fs, .struct gs => Ty.beqFields fs gs
  | .map k v, .map k2 v2 => Ty.beq k k2 && Ty.beq v v2
  | .iface, .iface => true
  | _, _ => false

/-- Structural equality of field tables. -/
def Ty.beqFields : List (String × Ty) → List (String × Ty) → Bool
  | [], [] => true
  | (n, t) :: fs, (m, u) :: gs => n == m && Ty.beq t u && Ty.beqFields fs gs
  | _, _ => false
end

mutual
/-- Structural equality of values, used for map key identity
(SetMapIndex replaces the entry whose key compares equal). -/
def Val.beq : Val → Val → Bool
  | .vint a, .vint b => a == b
  | .vuint a, .vuint b => a == b
  | .vfloat a, .vfloat b => a == b
  | .vbool a, .vbool b => a == b
  | .vstr a, .vstr b => a == b
  | .varr xs, .varr ys => Val.beqList xs ys
  | .vslice xs, .vslice ys => Val.beqList xs ys
  | .vstruct fs, .vstruct gs => Val.beqFields fs gs
  | .vmap es, .vmap fs => Val.beqEntries es fs
  | .vnilIface, .vnilIface => true
  | .viface t v, .viface u w => Ty.beq t u && Val.beq v w
  | _, _ => false
termination_by structural a _ => a

/-- Elementwise equality of value lists. -/
def Val.beqList : List Val → List Val → Bool
  | [], [] => true
  | x :: xs, y :: ys => Val.beq x y && Val.beqList xs ys
  | _, _ => false
termination_by structural l _ => l

/-- Elementwise equality of record field values. -/
def Val.beqFields : List (String × Val) → List (String × Val) → Bool
  | [], [] => true
  | (n, x) :: fs, (m, y) :: gs => n == m && Val.beq x y && Val.beqFields fs gs
  | _, _ => false
termination_by structural l _ => l

/-- Elementwise equality of map entry lists. -/
def Val.beqEntries : List (Val × Val) → List (Val × Val) → Bool
  | [], [] => true
  | (k, x) :: es, (l, y) :: fs => Val.beq k l && Val.beq x y && Val.beqEntries es fs
  | _, _ => false
termination_by structural l _ => l
end

mutual
/-- reflect.Zero of each shape: zero scalars, an array of zero
elements, the nil (empty) slice, a record of zero-valued fields, the
nil (empty) map, the nil interface. -/
def zeroVal : Ty → Val
  | .int => .vint 0
  | .uint => .vuint 0
  | .float => .vfloat "0"
  | .bool => .vbool false
  | .str => .vstr ""
  | .array n t => .varr (List.replicate n (zeroVal t))
  | .slice _ => .vslice []
  | .struct fts => .vstruct (zeroFields fts)
  | .map _ _ => .vmap []
  | .iface => .vnilIface

/-- Zero values of a field table, fieldwise. -/
def zeroFields : List (String × Ty) → List (String × Val)
  | [] => []
  | (n, t) :: rest => (n, zeroVal t) :: zeroFields rest
end

/-- Lookup in an association list keyed by exact name, as FieldByName
does on a struct's field set. -/
def lookupStr {α : Type} : List (String × α) → String → Option α
  | [], _ => none
  | (k, a) :: rest, n => if k = n then some a else lookupStr rest n

/-- Replacement of the value stored under a name, preserving field
order; the write through the field Value returned by FieldByName. -/
def updateStr {α : Type} : List (String × α) → String → α → List (String × α)
  | [], _, _ => []
  | (k, a) :: rest, n, b => if k = n then (k, b) :: rest else (k, a) :: updateStr rest n b

/-- SetMapIndex: replace the entry whose key compares equal, keeping
the originally stored key, or append a new entry. -/
def mapInsert : List (Val × Val) → Val → Val → List (Val × Val)
  | [], k, v => [(k, v)]
  | (k0, v0) :: rest, k, v =>
    if Val.beq k0 k then (k0, v) :: rest else (k0, v0) :: mapInsert rest k v

/-- SetBool: only a bool-kinded destination accepts it; every other
kind makes reflect panic, and the invalid Value panics on any use. -/
def setBool : RVal → Bool → Except Err Val
  | .invalid, _ => .error .invalidValue
  | .mk .bool _, b => .ok (.vbool b)
  | .mk _ _, _ => .error .setKindMismatch

/-- SetInt on the destination (int is the only signed-integer shape here). -/
def setInt : RVal → Int → Except Err Val
  | .invalid, _ => .error .invalidValue
  | .mk .int _, n => .ok (.vint n)
  | .mk _ _, _ => .error .setKindMismatch

/-- SetString on the destination. -/
def setStr : RVal → String → Except Err Val
  | .invalid, _ => .error .invalidValue
  | .mk .str _, s => .ok (.vstr s)
  | .mk _ _, _ => .error .setKindMismatch

/-- SetFloat on the destination. -/
def setFloat : RVal → String → Except Err Val
  | .invalid, _ => .error .invalidValue
  | .mk .float _, s => .ok (.vfloat s)
  | .mk _ _, _ => .error .setKindMismatch

/-- Set(reflect.Zero(v.Type())): the shape's zero value; calling Type
on the invalid Value panics. -/
def zeroOf : RVal → Except Err Val
  | .invalid => .error .invalidValue
  | .mk t _ => .ok (zeroVal t)

/-- endList from the source: a closing parenthesis ends the list, end
of input inside a list is fatal, anything else means more elements. -/
def endList : List Tok → Except Err Bool
  | [] => .error .eof
  | .rparen :: _ => .ok true
  | _ => .ok false

/-- strconv.Unquote of the current token's raw text with the error
ignored, as the source does: only a quoted string token unquotes
successfully; for every other token (or end of input) Unquote fails
and the ignored-error result is the empty string. -/
def unq : Option Tok → String
  | some (.str s) => s
  | _ => ""

/-- strconv.Atoi with its error ignored, as in the source's count
parse: an optional sign followed by decimal digits; on a syntax error
the result is 0, on range overflow the clamped 64-bit bound (which is
what ParseInt returns alongside the ignored range error). -/
def atoiIgnoreErr (s : List Char) : Int :=
  let digits : List Char → Nat → Option Nat := fun l acc =>
    l.foldl (fun acc? c => acc?.bind (fun a =>
      if c.isDigit then some (a * 10 + (c.toNat - 48)) else none)) (some acc)
  let core : Int → List Char → Int := fun sign ds =>
    match ds, digits ds 0 with
    | [], _ => 0
    | _ :: _, none => 0
    | _ :: _, some n =>
      let v : Int := sign * n
      if v > 2 ^ 63 - 1 then 2 ^ 63 - 1
      else if v < -(2 ^ 63) then -(2 ^ 63)
      else v
  match s with
  | '+' :: rest => core 1 rest
  | '-' :: rest => core (-1) rest
  | _ => core 1 s

mutual
/-- Validity of a shape as a Go map key type (reflect.MapOf panics on
non-comparable key types): slices and maps are not comparable, arrays
and records are comparable componentwise, everything else here is. -/
def mapKeyOk : Ty → Bool
  | .slice _ => false
  | .map _ _ => false
  | .array _ t => mapKeyOk t
  | .struct fs => mapKeyFieldsOk fs
  | _ => true

/-- Componentwise comparability of a field table. -/
def mapKeyFieldsOk : List (String × Ty) → Bool
  | [] => true
  | (_, t) :: rest => mapKeyOk t && mapKeyFieldsOk rest
end

/-- strings.IndexRune: the index of the first occurrence of a
character, with Go's minus-one absence result modelled as none. -/
def indexRune : List Char → Char → Option Nat
  | [], _ => none
  | c :: rest, d => if c = d then some 0 else (indexRune rest d).map (· + 1)

/-- The fixed atom table of the Type Reifier. -/
def atomTbl : List (List Char × Ty) :=
  [("int".toList, .int), ("uint".toList, .uint), ("float".toList, .float),
   ("bool".toList, .bool), ("string".toList, .str)]

/-- asType from the source over the descriptor's characters, with an
explicit recursion bound. Branch order follows the source exactly:
atom table, then the literal slice prefix, then a leading bracket
(where Go indexes typ directly, panicking on an empty string), then
the map prefix using the first bracket and the FIRST closing bracket
(strings.IndexRune), then the unknown-type panic. Go's out-of-range
string slicing (a negative or inverted range) is a panic, modelled by
strSlicePanic. -/
def asTypeF : Nat → List Char → Except Err Ty
  | 0, _ => .error .outOfFuel
  | fuel + 1, typ =>
    match List.lookup typ atomTbl with
    | some t => .ok t
    | none =>
      if ['[', ']'].isPrefixOf typ then
        (asTypeF fuel (typ.drop 2)).map .slice
      else
        match typ with
        | [] => .error .strIndexPanic
        | c :: _ =>
          if c = '[' then
            match indexRune typ ']' with
            | none => .error .strSlicePanic
            | some j =>
              let count := atoiIgnoreErr ((typ.drop 1).take (j - 1))
              match asTypeF fuel (typ.drop (j + 1)) with
              | .error e => .error e
              | .ok elem =>
                if count < 0 then .error .reflectPanic
                else .ok (.array count.toNat elem)
          else
            if ['m', 'a', 'p'].isPrefixOf typ then
              match indexRune typ '[', indexRune typ ']' with
              | _, none => .error .strSlicePanic
              | some i, some j =>
                if i + 1 ≤ j then
                  match asTypeF fuel ((typ.drop (i + 1)).take (j - (i + 1))) with
                  | .error e => .error e
                  | .ok kt =>
                    match asTypeF fuel (typ.drop (j + 1)) with
                    | .error e => .error e
                    | .ok vt =>
                      if mapKeyOk kt then .ok (.map kt vt) else .error .reflectPanic
                else .error .strSlicePanic
              | none, some j =>
                match asTypeF fuel (typ.take j) with
                | .error e => .error e
                | .ok kt =>
                  match asTypeF fuel (typ.drop (j + 1)) with
                  | .error e => .error e
                  | .ok vt =>
                    if mapKeyOk kt then .ok (.map kt vt) else .error .reflectPanic
            else .error (.unknownType typ)

/-- asType on a descriptor given as characters. Every recursive call
strictly shrinks the descriptor, so length + 1 fuel always suffices
and the outOfFuel branch is unreachable. -/
def asTypeL (l : List Char) : Except Err Ty := asTypeF (l.length + 1) l

/-- asType on a descriptor string. -/
def asType (s : String) : Except Err Ty := asTypeL s.toList

mutual
/-- read from the source: decode one value by dispatching on the
current token. Atoms assign through the destination and advance; an
opening parenthesis dispatches to readList and then advances once
more (lex.next in the source, with no check of the skipped token);
any other token is fatal. -/
def read : Nat → List Tok → RVal → Except Err (Val × List Tok)
  | 0, _, _ => .error .outOfFuel
  | fuel + 1, toks, v =>
    match toks with
    | .ident s :: rest =>
      if s = "nil" then
        match zeroOf v with
        | .error e => .error e
        | .ok z => .ok (z, rest)
      else if s = "t" then
        match setBool v true with
        | .error e => .error e
        | .ok w => .ok (w, rest)
      else .error (.unexpectedTok (some (.ident s)))
    | .str s :: rest =>
      match setStr v s with
      | .error e => .error e
      | .ok w => .ok (w, rest)
    | .int n :: rest =>
      match setInt v n with
      | .error e => .error e
      | .ok w => .ok (w, rest)
    | .float s :: rest =>
      match setFloat v s with
      | .error e => .error e
      | .ok w => .ok (w, rest)
    | .lparen :: rest =>
      match readList fuel rest v with
      | .error e => .error e
      | .ok (w, rest2) => .ok (w, rest2.tail)
    | .rparen :: _ => .error (.unexpectedTok (some .rparen))
    | [] => .error (.unexpectedTok none)

/-- readList from the source: the shape-directed list grammar,
dispatching on the destination's kind. The value of a well-formed
destination always matches its shape, so the trailing catch-all is
the source's default (cannot decode list) branch for scalar kinds. -/
def readList : Nat → List Tok → RVal → Except Err (Val × List Tok)
  | 0, _, _ => .error .outOfFuel
  | fuel + 1, toks, dest =>
    match dest with
    | .invalid => .error .invalidValue
    | .mk (.array n t) (.varr elems) => readArr fuel toks t n elems 0
    | .mk (.slice t) (.vslice elems) => readSeq fuel toks t elems
    | .mk (.struct fts) (.vstruct fvs) => readRec fuel toks fts fvs
    | .mk (.map kt vt) _ => readAssoc fuel toks kt vt []
    | .mk .iface _ =>
      match asType (unq toks.head?) with
      | .error e => .error e
      | .ok t =>
        match read fuel toks.tail (.mk t (zeroVal t)) with
        | .error e => .error e
        | .ok (w, rest) => .ok (.viface t w, rest)
    | .mk t _ => .error (.cannotDecode t)

/-- Array branch of readList: positional writes into successive
indices until the closing parenthesis; reflect's Index panics past
the array's declared length. -/
def readArr : Nat → List Tok → Ty → Nat → List Val → Nat → Except Err (Val × List Tok)
  | 0, _, _, _, _, _ => .error .outOfFuel
  | fuel + 1, toks, t, n, elems, i =>
    match endList toks with
    | .error e => .error e
    | .ok true => .ok (.varr elems, toks)
    | .ok false =>
      if i < n then
        match read fuel toks (.mk t (elems.getD i (zeroVal t))) with
        | .error e => .error e
        | .ok (w, rest) => readArr fuel rest t n (elems.set i w) (i + 1)
      else .error .indexOutOfRange

/-- Slice branch of readList: allocate a fresh zero element, read into
it, and append to the destination's current sequence. -/
def readSeq : Nat → List Tok → Ty → List Val → Except Err (Val × List Tok)
  | 0, _, _, _ => .error .outOfFuel
  | fuel + 1, toks, t, elems =>
    match endList toks with
    | .error e => .error e
    | .ok true => .ok (.vslice elems, toks)
    | .ok false =>
      match read fuel toks (.mk t (zeroVal t)) with
      | .error e => .error e
      | .ok (w, rest) => readSeq fuel rest t (elems ++ [w])

/-- Struct branch of readList: each entry is a parenthesized field
name and value; the field Value is obtained by exact-name lookup, and
a missing name yields the invalid Value, on which the recursive read
inevitably panics. -/
def readRec : Nat → List Tok → List (String × Ty) → List (String × Val) →
    Except Err (Val × List Tok)
  | 0, _, _, _ => .error .outOfFuel
  | fuel + 1, toks, fts, fvs =>
    match endList toks with
    | .error e => .error e
    | .ok true => .ok (.vstruct fvs, toks)
    | .ok false =>
      match toks with
      | .lparen :: rest =>
        match rest with
        | .ident name :: rest2 =>
          match lookupStr fts name, lookupStr fvs name with
          | some ft, some fv =>
            match read fuel rest2 (.mk ft fv) with
            | .error e => .error e
            | .ok (w, rest3) =>
              match rest3 with
              | .rparen :: rest4 => readRec fuel rest4 fts (updateStr fvs name w)
              | tk => .error (.consumeMismatch tk.head? .rparen)
          | _, _ =>
            match read fuel rest2 .invalid with
            | .error e => .error e
            | .ok (_, rest3) =>
              match rest3 with
              | .rparen :: rest4 => readRec fuel rest4 fts fvs
              | tk => .error (.consumeMismatch tk.head? .rparen)
        | tk => .error (.fieldNameExpected tk.head?)
      | tk => .error (.consumeMismatch tk.head? .lparen)

/-- Map branch of readList: the destination is replaced by a freshly
made empty map, then each parenthesized entry reads a key of the key
shape and a value of the value shape and is inserted by SetMapIndex. -/
def readAssoc : Nat → List Tok → Ty → Ty → List (Val × Val) → Except Err (Val × List Tok)
  | 0, _, _, _, _ => .error .outOfFuel
  | fuel + 1, toks, kt, vt, entries =>
    match endList toks with
    | .error e => .error e
    | .ok true => .ok (.vmap entries, toks)
    | .ok false =>
      match toks with
      | .lparen :: rest =>
        match read fuel rest (.mk kt (zeroVal kt)) with
        | .error e => .error e
        | .ok (k, rest2) =>
          match read fuel rest2 (.mk vt (zeroVal vt)) with
          | .error e => .error e
          | .ok (v, rest3) =>
            match rest3 with
            | .rparen :: rest4 => readAssoc fuel rest4 kt vt (mapInsert entries k v)
            | tk => .error (.consumeMismatch tk.head? .rparen)
      | tk => .error (.consumeMismatch tk.head? .lparen)
end

/-- Fuel supplied by the public API: a generous bound on the depth of
the read/readList recursion, which never exceeds three nested calls
per consumed token. -/
def fuelFor (toks : List Tok) : Nat := toks.length * 3 + 3

/-- Unmarshal from the source: prime the lexer on the first token, run
read against the caller's destination (whose current value the decoder
mutates through), and surface any fatal condition as an error result.
Trailing tokens after the decoded value are not examined. -/
def Unmarshal (toks : List Tok) (t : Ty) (v : Val) : Except Err Val :=
  match read (fuelFor toks) toks (.mk t v) with
  | .error e => .error e
  | .ok (w, _) => .ok w


/-- Shapes whose readList branch loops until the closing parenthesis:
fixed array, growable sequence, keyed record and associative map. The
scalar shapes reject lists outright, and the dynamic slot reads one
descriptor and one value without looking for the closing parenthesis. -/
def loopShape : Ty → Bool
  | .array _ _ => true
  | .slice _ => true
  | .struct _ => true
  | .map _ _ => true
  | _ => false

/-- Prepending previously held elements to a decoded sequence value;
identity on every other value. Relates decoding into a pre-populated
slice slot to decoding into an empty one. -/
def vprepend (pre : List Val) : Val → Val
  | .vslice es => .vslice (pre ++ es)
  | v => v

/-- Serialization of a list of record field entries: each entry is a
parenthesized field name followed by the tokens encoding the field's
value. The third component records the value that encoding decodes to
(used to state what the decoder produces) and does not influence the
token stream. -/
def entrySer : List (String × List Tok × Val) → List Tok
  | [] => []
  | (n, vts, _) :: rest => .lparen :: .ident n :: (vts ++ .rparen :: entrySer rest)

/-- Field writes performed by a list of record entries, in order: each
entry replaces the value stored under its own name. -/
def applyEntries : List (String × Val) → List (String × List Tok × Val) → List (String × Val)
  | fvs, [] => fvs
  | fvs, (n, _, w) :: rest => applyEntries (updateStr fvs n w) rest

/-- C1: decoding into a dynamic (interface) slot resolves the quoted
type descriptor to a concrete shape and decodes the following value
into a fresh value of that shape: the input ("[]int" (1 2 3)) produces
the integer sequence [1, 2, 3], and ("map[string]int" (("a" 1) ("b" 2)))
produces the associative map with entries a = 1 and b = 2. -/
theorem dynamic_slot_round_trip :
    Unmarshal [.lparen, .str "[]int", .lparen, .int 1, .int 2, .int 3, .rparen, .rparen]
      .iface .vnilIface =
      .ok (.viface (.slice .int) (.vslice [.vint 1, .vint 2, .vint 3])) ∧
    Unmarshal [.lparen, .str "map[string]int", .lparen,
        .lparen, .str "a", .int 1, .rparen,
        .lparen, .str "b", .int 2, .rparen, .rparen, .rparen]
      .iface .vnilIface =
      .ok (.viface (.map .str .int)
        (.vmap [(.vstr "a", .vint 1), (.vstr "b", .vint 2)])) :=
  ⟨rfl, rfl⟩

/-- C7: the identifier token nil decodes into a destination of any
shape as that shape's zero value, the identifier token t decodes into
a boolean destination as true, and in both cases the lexer advances
past the token (the remaining stream is exactly the tail). -/
theorem nil_and_t_atoms_decode :
    (∀ (fuel : Nat) (t : Ty) (v : Val) (rest : List Tok),
      read (fuel + 1) (.ident "nil" :: rest) (.mk t v) = .ok (zeroVal t, rest)) ∧
    (∀ (fuel : Nat) (b : Bool) (rest : List Tok),
      read (fuel + 1) (.ident "t" :: rest) (.mk .bool (.vbool b)) = .ok (.vbool true, rest)) := by
  refine ⟨fun fuel t v rest => rfl, fun fuel b rest => rfl⟩

/-- C2 counterexample: the Type Reifier splits a map descriptor at the
FIRST closing bracket, not at the bracket matching the first opening
one, so the composite-key descriptor map[[2]int]string does not
resolve: the key is cut to the malformed fragment with its bracket
missing, and resolution fails with a string-slicing panic. -/
theorem asType_composite_map_key_panics :
    asType "map[[2]int]string" = .error .strSlicePanic := rfl

/-- C3 counterexample: after the dynamic-slot list body (descriptor
"int" and the value 1) the next token is the integer 2, not the
closing parenthesis, yet decoding succeeds with value 1: the reader
advances blindly past one token instead of checking it, so a non-close
token after the body is silently skipped rather than fatal. -/
theorem dynamic_slot_skips_nonparen_token :
    Unmarshal [.lparen, .str "int", .int 1, .int 2, .rparen] .iface .vnilIface =
      .ok (.viface .int (.vint 1)) := rfl

/-- C4 counterexample: a slice destination that already holds the
element 9 decodes the input (1 2) to the sequence 9, 1, 2, because the
decoder appends to the destination's current sequence; the result is
not the input's elements alone and does depend on the prior contents. -/
theorem slice_decode_keeps_prior_elements :
    Unmarshal [.lparen, .int 1, .int 2, .rparen] (.slice .int) (.vslice [.vint 9]) =
      .ok (.vslice [.vint 9, .vint 1, .vint 2]) ∧
    Val.vslice [.vint 9, .vint 1, .vint 2] ≠ .vslice [.vint 1, .vint 2] :=
  ⟨rfl, by simp⟩

/-- C5 counterexample: the input ("int" 1 opens a list and reaches end
of input before any closing parenthesis, yet decoding into a dynamic
slot succeeds with value 1: the unconditional advance after the slot's
single value treats end of input silently, so an unclosed list is not
a decode failure for every destination shape. -/
theorem dynamic_slot_accepts_unclosed_list :
    Unmarshal [.lparen, .str "int", .int 1] .iface .vnilIface =
      .ok (.viface .int (.vint 1)) := rfl

/-- C8 counterexample: the example inputs carry a leading type atom
point, which the record grammar rejects when it consumes the expected
opening parenthesis of the first field entry: neither
(point (x 1) (y 2)) nor (point (y 2) (x 1)) decodes into the
two-field record, so the claimed pair of equal successful decodes
fails at this input. -/
theorem record_example_with_type_atom_fails :
    Unmarshal [.lparen, .ident "point", .lparen, .ident "x", .int 1, .rparen,
        .lparen, .ident "y", .int 2, .rparen, .rparen]
      (.struct [("x", .int), ("y", .int)])
      (.vstruct (zeroFields [("x", .int), ("y", .int)])) =
      .error (.consumeMismatch (some (.ident "point")) .lparen) ∧
    Unmarshal [.lparen, .ident "point", .lparen, .ident "y", .int 2, .rparen,
        .lparen, .ident "x", .int 1, .rparen, .rparen]
      (.struct [("x", .int), ("y", .int)])
      (.vstruct (zeroFields [("x", .int), ("y", .int)])) =
      .error (.consumeMismatch (some (.ident "point")) .lparen) :=
  ⟨rfl, rfl⟩


/-- Reading into the invalid Value with an integer token at hand fails
at SetInt, which panics on the invalid Value. -/
theorem read_invalid_int (f : Nat) (k : Int) (rest : List Tok) :
    read (f + 1) (.int k :: rest) .invalid = .error .invalidValue := rfl

/-- A record entry whose name is not among the record's fields makes
the recursive read operate on the invalid Value, which fails on first
use; here the entry's value is an integer token. -/
theorem readRec_unknown_field (f : Nat) (fts : List (String × Ty))
    (fvs : List (String × Val)) (name : String) (k : Int) (rest : List Tok)
    (h : lookupStr fts name = none) :
    readRec (f + 2) (.lparen :: .ident name :: .int k :: rest) fts fvs =
      .error .invalidValue := by
  rw [show f + 2 = (f + 1) + 1 from rfl]
  simp only [readRec, endList, h]
  rfl

/-- C6: a record field entry whose name matches no field of the
destination makes the decode call fail rather than succeed (the
reflective field lookup yields the invalid Value, whose first use
panics and aborts the decode); additionally, the literal example
(point (z 1)) against a record with fields x and y also fails, at the
spurious leading type atom. -/
theorem unknown_field_fails :
    (∀ (fts : List (String × Ty)) (name : String) (k : Int),
      lookupStr fts name = none →
      Unmarshal [.lparen, .lparen, .ident name, .int k, .rparen, .rparen]
        (.struct fts) (.vstruct (zeroFields fts)) = .error .invalidValue) ∧
    Unmarshal [.lparen, .ident "point", .lparen, .ident "z", .int 1, .rparen, .rparen]
      (.struct [("x", .int), ("y", .int)])
      (.vstruct (zeroFields [("x", .int), ("y", .int)])) =
      .error (.consumeMismatch (some (.ident "point")) .lparen) := by
  constructor
  · intro fts name k h
    simp only [Unmarshal]
    rw [show fuelFor [.lparen, .lparen, .ident name, .int k, .rparen, .rparen] = 20 + 1
      from rfl]
    simp only [read]
    rw [show (20 : Nat) = 19 + 1 from rfl]
    simp only [readList]
    rw [show (19 : Nat) = 17 + 2 from rfl]
    rw [readRec_unknown_field 17 fts (zeroFields fts) name k [.rparen, .rparen] h]
  · rfl

/-- Witness for the unknown-field failure at a concrete record. -/
theorem unknown_field_fails_witness :
    lookupStr [("x", Ty.int), ("y", Ty.int)] "z" = none ∧
    Unmarshal [.lparen, .lparen, .ident "z", .int 1, .rparen, .rparen]
      (.struct [("x", .int), ("y", .int)])
      (.vstruct (zeroFields [("x", .int), ("y", .int)])) = .error .invalidValue :=
  ⟨rfl, unknown_field_fails.1 [("x", .int), ("y", .int)] "z" 1 rfl⟩


/-- Looking a name up among the zero values of a field table mirrors
the lookup in the table itself. -/
theorem lookup_zeroFields (fts : List (String × Ty)) (n : String) :
    lookupStr (zeroFields fts) n = (lookupStr fts n).map zeroVal := by
  induction fts with
  | nil => rfl
  | cons p rest ih =>
    obtain ⟨m, t⟩ := p
    simp only [zeroFields, lookupStr]
    by_cases h : m = n <;> simp [h, ih]

/-- Updating one name leaves lookups of a different name unchanged. -/
theorem lookup_update_ne {α : Type} (l : List (String × α)) (m n : String)
    (b : α) (h : m ≠ n) : lookupStr (updateStr l m b) n = lookupStr l n := by
  induction l with
  | nil => rfl
  | cons p rest ih =>
    obtain ⟨k, a⟩ := p
    by_cases hk : k = m
    · subst hk
      simp only [updateStr, lookupStr, if_pos rfl]
      rw [if_neg (by exact fun hkn => h (hkn ▸ rfl)), if_neg (by exact fun hkn => h (hkn ▸ rfl))]
    · simp only [updateStr, if_neg hk, lookupStr]
      by_cases hn : k = n
      · simp [hn]
      · simp [hn, ih]

/-- Writes to two distinct names commute. -/
theorem updateStr_comm {α : Type} (l : List (String × α)) (n1 n2 : String)
    (a b : α) (h : n1 ≠ n2) :
    updateStr (updateStr l n1 a) n2 b = updateStr (updateStr l n2 b) n1 a := by
  induction l with
  | nil => rfl
  | cons p rest ih =>
    obtain ⟨k, c⟩ := p
    by_cases h1 : k = n1
    · subst h1
      have h2 : ¬ (k = n2) := fun hk => h (hk ▸ rfl)
      simp [updateStr, h2, if_pos rfl]
    · by_cases h2 : k = n2
      · subst h2
        simp [updateStr, h1, if_pos rfl]
      · simp [updateStr, h1, h2, ih]

/-- The slice loop starting from a longer accumulator produces exactly
the same elements with the extra prefix in front: decoding appends to
whatever the accumulator already holds. -/
theorem readSeq_shift (fuel : Nat) : ∀ (toks : List Tok) (t : Ty) (pre acc : List Val),
    readSeq fuel toks t (pre ++ acc) =
      (readSeq fuel toks t acc).map (fun p => (vprepend pre p.1, p.2)) := by
  induction fuel with
  | zero => intro toks t pre acc; rfl
  | succ f ih =>
    intro toks t pre acc
    simp only [readSeq]
    cases hE : endList toks with
    | error e => rfl
    | ok b =>
      cases b with
      | true => simp [vprepend, Except.map]
      | false =>
        cases hR : read f toks (.mk t (zeroVal t)) with
        | error e => rfl
        | ok p =>
          obtain ⟨w, rest⟩ := p
          show readSeq f rest t ((pre ++ acc) ++ [w]) =
            (readSeq f rest t (acc ++ [w])).map (fun p => (vprepend pre p.1, p.2))
          rw [List.append_assoc]
          exact ih rest t pre (acc ++ [w])

/-- C4 (amended): a slice destination is decoded by appending the
input's elements after whatever elements the slot already held: the
result over a pre-populated slot is the result over an empty slot with
the prior elements prepended, so the result equals exactly the input's
elements only when the slot held the empty sequence. -/
theorem slice_decode_appends_to_prior (body : List Tok) (t : Ty) (pre : List Val) :
    Unmarshal (.lparen :: body) (.slice t) (.vslice pre) =
      (Unmarshal (.lparen :: body) (.slice t) (.vslice [])).map (vprepend pre) := by
  simp only [Unmarshal]
  have hF : fuelFor (.lparen :: body) = (body.length * 3 + 5) + 1 := by
    simp [fuelFor]; omega
  rw [hF]
  simp only [read]
  rw [show body.length * 3 + 5 = (body.length * 3 + 4) + 1 from rfl]
  simp only [readList]
  have hs := readSeq_shift (body.length * 3 + 4) body t pre []
  rw [List.append_nil] at hs
  rw [hs]
  cases readSeq (body.length * 3 + 4) body t [] with
  | error e => rfl
  | ok p =>
    obtain ⟨w, rest⟩ := p
    simp [Except.map]

/-- The slice loop over integer tokens terminated by a closing
parenthesis appends the integers, in input order, to the accumulator. -/
theorem readSeq_ints : ∀ (ns : List Int) (f : Nat) (acc : List Val),
    ns.length + 1 ≤ f →
    readSeq f (ns.map Tok.int ++ [.rparen]) .int acc =
      .ok (.vslice (acc ++ ns.map Val.vint), [.rparen]) := by
  intro ns
  induction ns with
  | nil =>
    intro f acc hf
    obtain ⟨g, rfl⟩ : ∃ g, f = g + 1 := ⟨f - 1, by omega⟩
    simp [readSeq, endList]
  | cons m rest ih =>
    intro f acc hf
    simp only [List.length_cons] at hf
    obtain ⟨g2, rfl⟩ : ∃ g2, f = g2 + 2 := ⟨f - 2, by omega⟩
    have step : readSeq (g2 + 2) ((m :: rest).map Tok.int ++ [.rparen]) .int acc =
        readSeq (g2 + 1) (rest.map Tok.int ++ [.rparen]) .int (acc ++ [Val.vint m]) := rfl
    have h2 := ih (g2 + 1) (acc ++ [Val.vint m]) (by omega)
    rw [step, h2]
    simp

/-- C9: sequence decoding preserves input order: for every integer
list, decoding the parenthesized integers into a fresh (empty)
sequence of integers yields exactly those integers in input order;
in particular (1 2 3) decodes to the sequence 1, 2, 3. -/
theorem sequence_preserves_input_order :
    (∀ ns : List Int,
      Unmarshal (.lparen :: (ns.map Tok.int ++ [.rparen])) (.slice .int) (.vslice []) =
        .ok (.vslice (ns.map Val.vint))) ∧
    Unmarshal [.lparen, .int 1, .int 2, .int 3, .rparen] (.slice .int) (.vslice []) =
      .ok (.vslice [.vint 1, .vint 2, .vint 3]) := by
  constructor
  · intro ns
    simp only [Unmarshal]
    have hF : fuelFor (.lparen :: (ns.map Tok.int ++ [.rparen])) =
        (ns.length * 3 + 8) + 1 := by
      simp [fuelFor]; omega
    rw [hF]
    simp only [read]
    rw [show ns.length * 3 + 8 = (ns.length * 3 + 7) + 1 from rfl]
    simp only [readList]
    rw [readSeq_ints ns (ns.length * 3 + 7) [] (by omega)]
    rfl
  · rfl

/-- The array loop fails with the out-of-range index error as soon as
the elements seen so far exceed the array's declared length. -/
theorem readArr_overflow : ∀ (ns : List Int) (f i n : Nat) (es : List Val),
    ns.length + 2 ≤ f → i ≤ n → n < i + ns.length →
    readArr f (ns.map Tok.int ++ [.rparen]) .int n es i = .error .indexOutOfRange := by
  intro ns
  induction ns with
  | nil =>
    intro f i n es hf hi hn
    simp at hn
    omega
  | cons m rest ih =>
    intro f i n es hf hi hn
    simp only [List.length_cons] at hf hn
    obtain ⟨g2, rfl⟩ : ∃ g2, f = g2 + 2 := ⟨f - 2, by omega⟩
    have unf : readArr (g2 + 2) ((m :: rest).map Tok.int ++ [.rparen]) .int n es i =
        if i < n then
          readArr (g2 + 1) (rest.map Tok.int ++ [.rparen]) .int n (es.set i (.vint m))
            (i + 1)
        else .error .indexOutOfRange := by
      by_cases hlt : i < n
      · rw [if_pos hlt]
        show (if i < n then _ else Except.error Err.indexOutOfRange) =
          readArr (g2 + 1) (rest.map Tok.int ++ [.rparen]) .int n (es.set i (.vint m)) (i + 1)
        rw [if_pos hlt]
        rfl
      · rw [if_neg hlt]
        show (if i < n then _ else Except.error Err.indexOutOfRange) =
          Except.error Err.indexOutOfRange
        rw [if_neg hlt]
    rw [unf]
    by_cases hlt : i < n
    · rw [if_pos hlt]
      exact ih (g2 + 1) (i + 1) n (es.set i (.vint m)) (by omega) (by omega) (by omega)
    · rw [if_neg hlt]

/-- C10: decoding a list with more elements than a fixed array's
declared length makes the decode call return an error (the
out-of-range index write raised inside reflect is trapped at the
public API boundary); it never succeeds by discarding the extras. -/
theorem array_overflow_errors (n : Nat) (ns : List Int) (h : n < ns.length) :
    Unmarshal (.lparen :: (ns.map Tok.int ++ [.rparen])) (.array n .int)
      (zeroVal (.array n .int)) = .error .indexOutOfRange := by
  simp only [Unmarshal]
  have hF : fuelFor (.lparen :: (ns.map Tok.int ++ [.rparen])) =
      (ns.length * 3 + 8) + 1 := by
    simp [fuelFor]; omega
  rw [hF]
  simp only [zeroVal, read]
  rw [show ns.length * 3 + 8 = (ns.length * 3 + 7) + 1 from rfl]
  simp only [readList]
  rw [readArr_overflow ns (ns.length * 3 + 7) 0 n (List.replicate n (.vint 0))
    (by omega) (by omega) (by omega)]

/-- Witness for the array overflow error at a concrete input. -/
theorem array_overflow_errors_witness :
    2 < ([1, 2, 3] : List Int).length ∧
    Unmarshal (.lparen :: (([1, 2, 3] : List Int).map Tok.int ++ [.rparen]))
      (.array 2 .int) (zeroVal (.array 2 .int)) = .error .indexOutOfRange :=
  ⟨by decide, array_overflow_errors 2 [1, 2, 3] (by decide)⟩


/-- A successful closing test happens exactly at a closing parenthesis. -/
theorem endList_true (toks : List Tok) (h : endList toks = .ok true) :
    toks.head? = some Tok.rparen := by
  cases toks with
  | nil => simp [endList] at h
  | cons tk rest => cases tk <;> simp_all [endList]

/-- The four looping readList branches return, on success, positioned
exactly on a closing parenthesis, which the caller then advances past. -/
theorem loops_stop_at_rparen (fuel : Nat) :
    (∀ toks t n es i w toks2, readArr fuel toks t n es i = .ok (w, toks2) →
      toks2.head? = some Tok.rparen) ∧
    (∀ toks t es w toks2, readSeq fuel toks t es = .ok (w, toks2) →
      toks2.head? = some Tok.rparen) ∧
    (∀ toks fts fvs w toks2, readRec fuel toks fts fvs = .ok (w, toks2) →
      toks2.head? = some Tok.rparen) ∧
    (∀ toks kt vt es w toks2, readAssoc fuel toks kt vt es = .ok (w, toks2) →
      toks2.head? = some Tok.rparen) := by
  induction fuel with
  | zero =>
    refine ⟨?_, ?_, ?_, ?_⟩ <;> intro toks <;> intros <;>
      simp_all [readArr, readSeq, readRec, readAssoc]
  | succ f ih =>
    obtain ⟨ihA, ihS, ihR, ihM⟩ := ih
    refine ⟨?_, ?_, ?_, ?_⟩
    · intro toks t n es i w toks2 h
      simp only [readArr] at h
      split at h
      · simp at h
      · rename_i heq
        injection h with h1
        injection h1 with hw ht
        subst ht
        exact endList_true toks heq
      · split at h
        · split at h
          · simp at h
          · exact ihA _ _ _ _ _ _ _ h
        · simp at h
    · intro toks t es w toks2 h
      simp only [readSeq] at h
      split at h
      · simp at h
      · rename_i heq
        injection h with h1
        injection h1 with hw ht
        subst ht
        exact endList_true toks heq
      · split at h
        · simp at h
        · exact ihS _ _ _ _ _ h
    · intro toks fts fvs w toks2 h
      simp only [readRec] at h
      split at h
      · simp at h
      · rename_i heq
        injection h with h1
        injection h1 with hw ht
        subst ht
        exact endList_true toks heq
      · split at h
        · split at h
          · split at h
            · split at h
              · simp at h
              · split at h
                · exact ihR _ _ _ _ _ h
                · simp at h
            · split at h
              · simp at h
              · split at h
                · exact ihR _ _ _ _ _ h
                · simp at h
          · simp at h
        · simp at h
    · intro toks kt vt es w toks2 h
      simp only [readAssoc] at h
      split at h
      · simp at h
      · rename_i heq
        injection h with h1
        injection h1 with hw ht
        subst ht
        exact endList_true toks heq
      · split at h
        · split at h
          · simp at h
          · split at h
            · simp at h
            · split at h
              · exact ihM _ _ _ _ _ _ h
              · simp at h
        · simp at h


/-- Membership in the tail implies membership in the list. -/
theorem mem_of_mem_tail {α : Type} (l : List α) (x : α) (h : x ∈ l.tail) : x ∈ l := by
  cases l with
  | nil => simp at h
  | cons a r => exact List.mem_cons_of_mem a h

/-- The decoder only ever consumes tokens from the front: every token
still unread after a successful call was already present in the input
stream handed to that call. -/
theorem consumed_within (fuel : Nat) :
    (∀ toks v w toks2, read fuel toks v = .ok (w, toks2) →
      ∀ x, x ∈ toks2 → x ∈ toks) ∧
    (∀ toks v w toks2, readList fuel toks v = .ok (w, toks2) →
      ∀ x, x ∈ toks2 → x ∈ toks) ∧
    (∀ toks t n es i w toks2, readArr fuel toks t n es i = .ok (w, toks2) →
      ∀ x, x ∈ toks2 → x ∈ toks) ∧
    (∀ toks t es w toks2, readSeq fuel toks t es = .ok (w, toks2) →
      ∀ x, x ∈ toks2 → x ∈ toks) ∧
    (∀ toks fts fvs w toks2, readRec fuel toks fts fvs = .ok (w, toks2) →
      ∀ x, x ∈ toks2 → x ∈ toks) ∧
    (∀ toks kt vt es w toks2, readAssoc fuel toks kt vt es = .ok (w, toks2) →
      ∀ x, x ∈ toks2 → x ∈ toks) := by
  induction fuel with
  | zero =>
    refine ⟨?_, ?_, ?_, ?_, ?_, ?_⟩ <;> intro toks <;> intros <;>
      simp_all [read, readList, readArr, readSeq, readRec, readAssoc]
  | succ f ih =>
    obtain ⟨ihRd, ihL, ihA, ihS, ihR, ihM⟩ := ih
    refine ⟨?_, ?_, ?_, ?_, ?_, ?_⟩
    · intro toks v w toks2 h
      simp only [read] at h
      split at h
      · split at h
        · split at h
          · simp at h
          · injection h with h1
            injection h1 with hw ht
            subst ht
            exact fun x hx => List.mem_cons_of_mem _ hx
        · split at h
          · split at h
            · simp at h
            · injection h with h1
              injection h1 with hw ht
              subst ht
              exact fun x hx => List.mem_cons_of_mem _ hx
          · simp at h
      · split at h
        · simp at h
        · injection h with h1
          injection h1 with hw ht
          subst ht
          exact fun x hx => List.mem_cons_of_mem _ hx
      · split at h
        · simp at h
        · injection h with h1
          injection h1 with hw ht
          subst ht
          exact fun x hx => List.mem_cons_of_mem _ hx
      · split at h
        · simp at h
        · injection h with h1
          injection h1 with hw ht
          subst ht
          exact fun x hx => List.mem_cons_of_mem _ hx
      · split at h
        · simp at h
        · rename_i w0 rest2 hr
          injection h with h1
          injection h1 with hw ht
          subst ht
          intro x hx
          exact List.mem_cons_of_mem _ (ihL _ _ _ _ hr x (mem_of_mem_tail _ _ hx))
      · simp at h
      · simp at h
    · intro toks v w toks2 h
      simp only [readList] at h
      split at h
      · simp at h
      · exact ihA _ _ _ _ _ _ _ h
      · exact ihS _ _ _ _ _ h
      · exact ihR _ _ _ _ _ h
      · exact ihM _ _ _ _ _ _ h
      · split at h
        · simp at h
        · split at h
          · simp at h
          · rename_i t0 _ w0 rest hr
            injection h with h1
            injection h1 with hw ht
            subst ht
            intro x hx
            exact mem_of_mem_tail _ _ (ihRd _ _ _ _ hr x hx)
      · simp at h
    · intro toks t n es i w toks2 h
      simp only [readArr] at h
      split at h
      · simp at h
      · injection h with h1
        injection h1 with hw ht
        subst ht
        exact fun x hx => hx
      · split at h
        · split at h
          · simp at h
          · rename_i w0 rest hr
            intro x hx
            exact ihRd _ _ _ _ hr x (ihA _ _ _ _ _ _ _ h x hx)
        · simp at h
    · intro toks t es w toks2 h
      simp only [readSeq] at h
      split at h
      · simp at h
      · injection h with h1
        injection h1 with hw ht
        subst ht
        exact fun x hx => hx
      · split at h
        · simp at h
        · rename_i w0 rest hr
          intro x hx
          exact ihRd _ _ _ _ hr x (ihS _ _ _ _ _ h x hx)
    · intro toks fts fvs w toks2 h
      simp only [readRec] at h
      split at h
      · simp at h
      · injection h with h1
        injection h1 with hw ht
        subst ht
        exact fun x hx => hx
      · split at h
        · split at h
          · split at h
            · split at h
              · simp at h
              · split at h
                · rename_i xs w0 rest3x rest4 hr
                  intro x hx
                  have h4 := ihR _ _ _ _ _ h x hx
                  have h3 := List.mem_cons_of_mem Tok.rparen h4
                  have h2 := ihRd _ _ _ _ hr x h3
                  exact List.mem_cons_of_mem _ (List.mem_cons_of_mem _ h2)
                · simp at h
            · split at h
              · simp at h
              · split at h
                · rename_i xs w0 rest3x rest4 hr
                  intro x hx
                  have h4 := ihR _ _ _ _ _ h x hx
                  have h3 := List.mem_cons_of_mem Tok.rparen h4
                  have h2 := ihRd _ _ _ _ hr x h3
                  exact List.mem_cons_of_mem _ (List.mem_cons_of_mem _ h2)
                · simp at h
          · simp at h
        · simp at h
    · intro toks kt vt es w toks2 h
      simp only [readAssoc] at h
      split at h
      · simp at h
      · injection h with h1
        injection h1 with hw ht
        subst ht
        exact fun x hx => hx
      · split at h
        · split at h
          · simp at h
          · split at h
            · simp at h
            · split at h
              · rename_i xk k0 rest2x hkey xv v0 rest3x rest4 hval
                intro x hx
                have h4 := ihM _ _ _ _ _ _ h x hx
                have h3 := List.mem_cons_of_mem Tok.rparen h4
                have h2 := ihRd _ _ _ _ hval x h3
                have h1 := ihRd _ _ _ _ hkey x h2
                exact List.mem_cons_of_mem _ h1
              · simp at h
        · simp at h


/-- Dispatch of the loop-exit property through readList: for the four
looping shapes a successful readList is positioned on a closing
parenthesis. -/
theorem readList_loop_exit_head (fuel : Nat) (toks : List Tok) (t : Ty)
    (v : Val) (w : Val) (toks2 : List Tok) (hShape : loopShape t = true)
    (h : readList fuel toks (.mk t v) = .ok (w, toks2)) :
    toks2.head? = some Tok.rparen := by
  cases fuel with
  | zero => simp [readList] at h
  | succ f =>
    obtain ⟨hA, hS, hR, hM⟩ := loops_stop_at_rparen f
    cases t with
    | array n te =>
      cases v <;> simp only [readList] at h <;>
        first
        | exact hA _ _ _ _ _ _ _ h
        | simp at h
    | slice te =>
      cases v <;> simp only [readList] at h <;>
        first
        | exact hS _ _ _ _ _ h
        | simp at h
    | struct fts =>
      cases v <;> simp only [readList] at h <;>
        first
        | exact hR _ _ _ _ _ h
        | simp at h
    | map kt vt =>
      simp only [readList] at h
      exact hM _ _ _ _ _ _ h
    | int => simp [loopShape] at hShape
    | uint => simp [loopShape] at hShape
    | float => simp [loopShape] at hShape
    | bool => simp [loopShape] at hShape
    | str => simp [loopShape] at hShape
    | iface => simp [loopShape] at hShape

/-- C3 (amended): after readList the reader advances past exactly one
token without checking it. For the four looping shapes (fixed array,
sequence, record, associative map) readList can only return
successfully while positioned on a closing parenthesis, so the
unchecked advance consumes exactly the matching close; for a dynamic
slot the token following the descriptor's single value is skipped
whatever it is, so a stray non-close token there is not an error. -/
theorem readList_loop_shapes_stop_at_rparen (fuel : Nat) (toks : List Tok) (t : Ty)
    (v : Val) (w : Val) (toks2 : List Tok) (hShape : loopShape t = true)
    (h : readList fuel toks (.mk t v) = .ok (w, toks2)) :
    toks2.head? = some Tok.rparen :=
  readList_loop_exit_head fuel toks t v w toks2 hShape h

/-- Witness for the loop shapes stopping at the closing parenthesis:
a sequence destination on an immediately closed list. -/
theorem readList_loop_shapes_stop_at_rparen_witness :
    loopShape (.slice .int) = true ∧ ([Tok.rparen].head? = some Tok.rparen) :=
  ⟨rfl, readList_loop_shapes_stop_at_rparen 2 [.rparen] (.slice .int) (.vslice [])
    (.vslice []) [.rparen] rfl rfl⟩

/-- C5 (amended): for the four looping destination shapes, an input
that opens a list over a token stream containing no closing
parenthesis at all never decodes successfully, at any recursion bound
and hence at the public API: the loop can stop only at a close, and
the clean truncation (1 2 into a sequence fails with exactly the
end-of-input condition. A dynamic-slot destination is the exception:
it does not look for the close (see the counterexample). -/
theorem unclosed_list_never_decodes :
    (∀ (toks : List Tok) (t : Ty) (v w : Val) (toks2 : List Tok) (fuel : Nat),
      loopShape t = true → Tok.rparen ∉ toks →
      read fuel (.lparen :: toks) (.mk t v) ≠ .ok (w, toks2)) ∧
    (∀ (toks : List Tok) (t : Ty) (v w : Val),
      loopShape t = true → Tok.rparen ∉ toks →
      Unmarshal (.lparen :: toks) t v ≠ .ok w) ∧
    Unmarshal [.lparen, .int 1, .int 2] (.slice .int) (.vslice []) = .error .eof := by
  have main : ∀ (toks : List Tok) (t : Ty) (v w : Val) (toks2 : List Tok) (fuel : Nat),
      loopShape t = true → Tok.rparen ∉ toks →
      read fuel (.lparen :: toks) (.mk t v) ≠ .ok (w, toks2) := by
    intro toks t v w toks2 fuel hShape hNot h
    cases fuel with
    | zero => simp [read] at h
    | succ f =>
      simp only [read] at h
      split at h
      · simp at h
      · rename_i w0 rest2 hL
        have hHead := readList_loop_exit_head f toks t v w0 rest2 hShape hL
        have hMem : Tok.rparen ∈ rest2 := by
          cases rest2 with
          | nil => simp at hHead
          | cons a r =>
            simp only [List.head?_cons, Option.some_inj] at hHead
            rw [hHead]
            exact List.mem_cons_self _ _
        exact hNot ((consumed_within f).2.1 _ _ _ _ hL Tok.rparen hMem)
  refine ⟨main, ?_, rfl⟩
  intro toks t v w hShape hNot h
  simp only [Unmarshal] at h
  split at h
  · simp at h
  · rename_i w0 rest2 heq
    exact main toks t v w0 rest2 _ hShape hNot heq

/-- Witness for the unclosed-list failure at a concrete truncated
input and sequence destination. -/
theorem unclosed_list_never_decodes_witness :
    loopShape (.slice .int) = true ∧ (Tok.rparen ∉ ([.int 1, .int 2] : List Tok)) ∧
    Unmarshal [.lparen, .int 1, .int 2] (.slice .int) (.vslice []) ≠
      .ok (.vslice [.vint 1, .vint 2]) :=
  ⟨rfl, by decide,
    unclosed_list_never_decodes.2.1 [.int 1, .int 2] (.slice .int) (.vslice [])
      (.vslice [.vint 1, .vint 2]) rfl (by decide)⟩


/-- A found index lies inside the string. -/
theorem indexRune_lt_length (l : List Char) (c : Char) (j : Nat)
    (h : indexRune l c = some j) : j < l.length := by
  induction l generalizing j with
  | nil => simp [indexRune] at h
  | cons a rest ih =>
    simp only [indexRune] at h
    by_cases hac : a = c
    · rw [if_pos hac] at h
      injection h with h1
      subst h1
      simp
    · rw [if_neg hac] at h
      cases hr : indexRune rest c with
      | none => rw [hr] at h; simp at h
      | some j0 =>
        rw [hr] at h
        simp at h
        have := ih j0 hr
        rw [List.length_cons]
        omega

/-- A found character is a member of the string. -/
theorem indexRune_mem (l : List Char) (c : Char) (j : Nat)
    (h : indexRune l c = some j) : c ∈ l := by
  induction l generalizing j with
  | nil => simp [indexRune] at h
  | cons a rest ih =>
    simp only [indexRune] at h
    by_cases hac : a = c
    · rw [hac]; exact List.mem_cons_self _ _
    · rw [if_neg hac] at h
      cases hr : indexRune rest c with
      | none => rw [hr] at h; simp at h
      | some j0 => exact List.mem_cons_of_mem _ (ih j0 hr)

/-- The first index of a character standing right after a prefix that
avoids it is the prefix's length. -/
theorem indexRune_append (K V : List Char) (c : Char) (h : c ∉ K) :
    indexRune (K ++ c :: V) c = some K.length := by
  induction K with
  | nil => simp [indexRune]
  | cons a rest ih =>
    have hac : ¬ (a = c) := fun hx => h (hx ▸ List.mem_cons_self _ _)
    have hrest : c ∉ rest := fun hx => h (List.mem_cons_of_mem _ hx)
    show (if a = c then some 0 else (indexRune (rest ++ c :: V) c).map (· + 1)) =
      some (a :: rest).length
    rw [if_neg hac, ih hrest]
    simp [List.length_cons]

/-- A two-character prefix needs at least two characters. -/
theorem isPrefixOf_pair_length (a b : Char) (l : List Char)
    (h : ([a, b].isPrefixOf l) = true) : 2 ≤ l.length := by
  cases l with
  | nil => simp [List.isPrefixOf] at h
  | cons x rest =>
    cases rest with
    | nil => simp [List.isPrefixOf] at h
    | cons y rest2 => simp [List.length_cons]

/-- Resolution is independent of the recursion bound as long as the
bound exceeds the descriptor's length (every recursive call strictly
shrinks the descriptor). -/
theorem asTypeF_congr : ∀ (n : Nat) (typ : List Char) (f g : Nat),
    typ.length ≤ n → typ.length < f → typ.length < g → asTypeF f typ = asTypeF g typ := by
  intro n
  induction n with
  | zero =>
    intro typ f g hn hf hg
    have htyp : typ = [] := List.eq_nil_of_length_eq_zero (Nat.le_zero.mp hn)
    subst htyp
    obtain ⟨f1, rfl⟩ : ∃ f1, f = f1 + 1 := ⟨f - 1, by omega⟩
    obtain ⟨g1, rfl⟩ : ∃ g1, g = g1 + 1 := ⟨g - 1, by omega⟩
    rfl
  | succ m ih =>
    intro typ f g hn hf hg
    obtain ⟨f1, rfl⟩ : ∃ f1, f = f1 + 1 := ⟨f - 1, by omega⟩
    obtain ⟨g1, rfl⟩ : ∃ g1, g = g1 + 1 := ⟨g - 1, by omega⟩
    simp only [asTypeF]
    split
    · rfl
    · split
      · rename_i hp
        rw [ih (typ.drop 2) f1 g1
          (by have := isPrefixOf_pair_length _ _ _ hp; simp [List.length_drop]; omega)
          (by have := isPrefixOf_pair_length _ _ _ hp; simp [List.length_drop]; omega)
          (by have := isPrefixOf_pair_length _ _ _ hp; simp [List.length_drop]; omega)]
      · split
        · rfl
        · rename_i hlk hnp
          split
          · split
            · rfl
            · rename_i typX cc tl hbr xo j hj
              have hlen : (cc :: tl).length = tl.length + 1 := rfl
              have hjlt := indexRune_lt_length _ _ _ hj
              rw [ih (List.drop (j + 1) (cc :: tl)) f1 g1
                (by simp only [List.length_drop]; omega)
                (by simp only [List.length_drop]; omega)
                (by simp only [List.length_drop]; omega)]
          · split
            · split
              · rfl
              · rename_i typX cc tl hc hm xi xj i j hi hj
                have hlen : (cc :: tl).length = tl.length + 1 := rfl
                have hjlt := indexRune_lt_length _ _ _ hj
                rw [ih (List.take (j - (i + 1)) (List.drop (i + 1) (cc :: tl))) f1 g1
                  (by simp only [List.length_take, List.length_drop]; omega)
                  (by simp only [List.length_take, List.length_drop]; omega)
                  (by simp only [List.length_take, List.length_drop]; omega)]
                rw [ih (List.drop (j + 1) (cc :: tl)) f1 g1
                  (by simp only [List.length_drop]; omega)
                  (by simp only [List.length_drop]; omega)
                  (by simp only [List.length_drop]; omega)]
              · rename_i typX cc tl hc hm xi xj j hi hj
                have hlen : (cc :: tl).length = tl.length + 1 := rfl
                have hjlt := indexRune_lt_length _ _ _ hj
                rw [ih (List.take j (cc :: tl)) f1 g1
                  (by simp only [List.length_take]; omega)
                  (by simp only [List.length_take]; omega)
                  (by simp only [List.length_take]; omega)]
                rw [ih (List.drop (j + 1) (cc :: tl)) f1 g1
                  (by simp only [List.length_drop]; omega)
                  (by simp only [List.length_drop]; omega)
                  (by simp only [List.length_drop]; omega)]
            · rfl


/-- A two-character prefix puts its second character in the string. -/
theorem isPrefixOf_pair_mem (a b : Char) (l : List Char)
    (h : ([a, b].isPrefixOf l) = true) : b ∈ l := by
  cases l with
  | nil => simp [List.isPrefixOf] at h
  | cons x rest =>
    cases rest with
    | nil => simp [List.isPrefixOf] at h
    | cons y rest2 =>
      simp [List.isPrefixOf] at h
      obtain ⟨h1, h2⟩ := h
      subst h2
      exact List.mem_cons_of_mem _ (List.mem_cons_self _ _)

/-- A descriptor containing no closing bracket can only resolve
through the atom table, and every atom is a valid map key. -/
theorem asTypeL_no_close_is_atom (K : List Char) (t : Ty) (hK : ']' ∉ K)
    (h : asTypeL K = .ok t) : mapKeyOk t = true := by
  unfold asTypeL at h
  simp only [asTypeF] at h
  split at h
  · rename_i t0 heq
    injection h with h1
    subst h1
    simp only [atomTbl, List.lookup] at heq
    split at heq
    · injection heq with h2; subst h2; rfl
    · split at heq
      · injection heq with h2; subst h2; rfl
      · split at heq
        · injection heq with h2; subst h2; rfl
        · split at heq
          · injection heq with h2; subst h2; rfl
          · split at heq
            · injection heq with h2; subst h2; rfl
            · simp at heq
  · split at h
    · rename_i hp
      exact absurd (isPrefixOf_pair_mem _ _ _ hp) hK
    · split at h
      · simp at h
      · split at h
        · split at h
          · simp at h
          · rename_i heq
            exact absurd (indexRune_mem _ _ _ heq) hK
        · split at h
          · split at h
            · simp at h
            · rename_i hi hj
              exact absurd (indexRune_mem _ _ _ hj) hK
            · rename_i hi hj
              exact absurd (indexRune_mem _ _ _ hj) hK
          · simp at h

/-- One unfolding of the Type Reifier on a map descriptor, once the
position of the first closing bracket is known: the key part is the
slice up to that bracket, the value part is the remainder after it. -/
theorem asTypeF_map_unfold (f : Nat) (S : List Char) (j : Nat)
    (hj : indexRune ('m' :: 'a' :: 'p' :: '[' :: S) ']' = some (j + 4)) :
    asTypeF (f + 1) ('m' :: 'a' :: 'p' :: '[' :: S) =
      (match asTypeF f (S.take j) with
       | .error e => .error e
       | .ok kt =>
         match asTypeF f (S.drop (j + 1)) with
         | .error e => .error e
         | .ok vt => if mapKeyOk kt then .ok (.map kt vt) else .error .reflectPanic) := by
  simp only [asTypeF]
  rw [hj]
  show (if 3 + 1 ≤ j + 4 then
      match asTypeF f (List.take ((j + 4) - (3 + 1)) (List.drop (3 + 1)
          ('m' :: 'a' :: 'p' :: '[' :: S))) with
      | Except.error e => (Except.error e : Except Err Ty)
      | Except.ok kt =>
        match asTypeF f (List.drop ((j + 4) + 1) ('m' :: 'a' :: 'p' :: '[' :: S)) with
        | Except.error e => Except.error e
        | Except.ok vt =>
          if mapKeyOk kt = true then Except.ok (Ty.map kt vt)
          else Except.error Err.reflectPanic
    else Except.error Err.strSlicePanic) =
    (match asTypeF f (S.take j) with
     | Except.error e => (Except.error e : Except Err Ty)
     | Except.ok kt =>
       match asTypeF f (S.drop (j + 1)) with
       | Except.error e => Except.error e
       | Except.ok vt =>
         if mapKeyOk kt = true then Except.ok (Ty.map kt vt)
         else Except.error Err.reflectPanic)
  rw [if_pos (show 3 + 1 ≤ j + 4 by omega)]
  rfl

/-- C2 (amended): for every type descriptor of the form map[K]V whose
key descriptor K contains no closing bracket (so the FIRST closing
bracket, which the resolver locates with strings.IndexRune, is the one
closing the key), resolution takes K as the key descriptor and V as
the value descriptor and produces the associative-map shape over their
resolutions; composite keys containing a closing bracket, such as
map[[2]int]string, are instead cut at that inner bracket and fail
(see the counterexample). -/
theorem asType_map_splits_at_first_close (K V : List Char) (hK : ']' ∉ K) :
    asTypeL ('m' :: 'a' :: 'p' :: '[' :: (K ++ ']' :: V)) =
      (asTypeL K).bind (fun kt => (asTypeL V).map (fun vt => Ty.map kt vt)) := by
  have hj : indexRune ('m' :: 'a' :: 'p' :: '[' :: (K ++ ']' :: V)) ']' =
      some (K.length + 4) := by
    have hstep : indexRune ('m' :: 'a' :: 'p' :: '[' :: (K ++ ']' :: V)) ']' =
        ((((indexRune (K ++ ']' :: V) ']').map (· + 1)).map (· + 1)).map
          (· + 1)).map (· + 1) := rfl
    rw [hstep, indexRune_append K V ']' hK]
    rfl
  have hlen : ('m' :: 'a' :: 'p' :: '[' :: (K ++ ']' :: V)).length =
      K.length + V.length + 5 := by
    simp [List.length_append]
    omega
  have htake : (K ++ ']' :: V).take K.length = K := List.take_left K (']' :: V)
  have hdrop : (K ++ ']' :: V).drop (K.length + 1) = V := by
    rw [show K ++ ']' :: V = (K ++ [']']) ++ V by simp]
    rw [show K.length + 1 = (K ++ [']']).length by simp]
    exact List.drop_left _ _
  unfold asTypeL
  rw [asTypeF_map_unfold ('m' :: 'a' :: 'p' :: '[' :: (K ++ ']' :: V)).length
    (K ++ ']' :: V) K.length hj]
  rw [htake, hdrop]
  rw [asTypeF_congr K.length K ('m' :: 'a' :: 'p' :: '[' :: (K ++ ']' :: V)).length
    (K.length + 1) (Nat.le_refl _) (by rw [hlen]; omega) (by omega)]
  rw [asTypeF_congr V.length V ('m' :: 'a' :: 'p' :: '[' :: (K ++ ']' :: V)).length
    (V.length + 1) (Nat.le_refl _) (by rw [hlen]; omega) (by omega)]
  cases hKr : asTypeF (K.length + 1) K with
  | error e => rfl
  | ok kt =>
    have hOk := asTypeL_no_close_is_atom K kt hK hKr
    cases asTypeF (V.length + 1) V with
    | error e => rfl
    | ok vt =>
      show (if mapKeyOk kt = true then Except.ok (Ty.map kt vt)
            else Except.error Err.reflectPanic) = _
      rw [if_pos hOk]
      rfl

/-- Witness for map descriptor resolution at a concrete simple key. -/
theorem asType_map_splits_at_first_close_witness :
    (']' ∉ ("string".toList : List Char)) ∧
    asTypeL ('m' :: 'a' :: 'p' :: '[' :: ("string".toList ++ ']' :: "int".toList)) =
      (asTypeL "string".toList).bind
        (fun kt => (asTypeL "int".toList).map (fun vt => Ty.map kt vt)) :=
  ⟨by decide, asType_map_splits_at_first_close "string".toList "int".toList (by decide)⟩


/-- Writes of entries with pairwise-distinct names are invariant under
permutation of the entry list: each entry touches only its own field
and writes to distinct names commute. -/
theorem applyEntries_perm {es es2 : List (String × List Tok × Val)}
    (hperm : es.Perm es2) :
    (es.map (fun p => p.1)).Nodup →
    ∀ fvs : List (String × Val), applyEntries fvs es = applyEntries fvs es2 := by
  induction hperm with
  | nil => intro _ fvs; rfl
  | cons x hp ih =>
    intro hnodup fvs
    obtain ⟨n, vts, w⟩ := x
    simp only [applyEntries]
    exact ih (by simp only [List.map_cons, List.nodup_cons] at hnodup; exact hnodup.2) _
  | swap x y l =>
    intro hnodup fvs
    obtain ⟨n1, v1, w1⟩ := x
    obtain ⟨n2, v2, w2⟩ := y
    have hne : n2 ≠ n1 := by
      simp only [List.map_cons, List.nodup_cons, List.mem_cons] at hnodup
      exact fun h => hnodup.1 (Or.inl h)
    simp only [applyEntries]
    rw [updateStr_comm fvs n2 n1 w2 w1 hne]
  | trans p1 p2 ih1 ih2 =>
    intro hnodup fvs
    rw [ih1 hnodup fvs, ih2 (((p1.map (fun p => p.1)).nodup_iff).mp hnodup) fvs]

/-- One record entry whose name resolves and whose value tokens read
completely advances the loop: the named field is replaced and the loop
continues after the entry's closing parenthesis. -/
theorem readRec_entry_step (f : Nat) (fts : List (String × Ty))
    (fvs : List (String × Val)) (name : String) (ft : Ty) (fv : Val)
    (valToks : List Tok) (w : Val) (rest0 : List Tok)
    (hlft : lookupStr fts name = some ft) (hlfv : lookupStr fvs name = some fv)
    (hre : read f (valToks ++ .rparen :: rest0) (.mk ft fv) = .ok (w, .rparen :: rest0)) :
    readRec (f + 1) (.lparen :: .ident name :: (valToks ++ .rparen :: rest0)) fts fvs =
      readRec f rest0 fts (updateStr fvs name w) := by
  simp only [readRec, endList, hlft, hlfv, hre]

/-- Evaluation of the record loop on a serialized entry list: when
every entry names a field of the record whose stored value is still
the zero value, and every entry's value tokens decode completely to
its recorded value from a fresh field, the loop succeeds, performs
exactly the entry writes in order, and stops at the final closing
parenthesis. -/
theorem readRec_entries (fts : List (String × Ty))
    (es : List (String × List Tok × Val)) :
    ∀ (fvs : List (String × Val)) (f : Nat),
    3 * (entrySer es).length + 2 ≤ f →
    (es.map (fun p => p.1)).Nodup →
    (∀ p ∈ es, ∃ ft, lookupStr fts p.1 = some ft ∧
      lookupStr fvs p.1 = some (zeroVal ft) ∧
      ∀ fuel rest, 3 * p.2.1.length + 3 ≤ fuel →
        read fuel (p.2.1 ++ rest) (.mk ft (zeroVal ft)) = .ok (p.2.2, rest)) →
    readRec f (entrySer es ++ [.rparen]) fts fvs =
      .ok (.vstruct (applyEntries fvs es), [.rparen]) := by
  induction es with
  | nil =>
    intro fvs f hf _ _
    obtain ⟨g, rfl⟩ : ∃ g, f = g + 1 := ⟨f - 1, by omega⟩
    rfl
  | cons p rest ih =>
    intro fvs f hf hnodup hwf
    obtain ⟨n, vts, w⟩ := p
    have hlen : (entrySer ((n, vts, w) :: rest)).length =
        vts.length + (entrySer rest).length + 3 := by
      simp [entrySer]
      omega
    obtain ⟨g, rfl⟩ : ∃ g, f = g + 1 := ⟨f - 1, by omega⟩
    obtain ⟨ft, hlft, hlfv, hread⟩ := hwf (n, vts, w) (List.mem_cons_self _ _)
    have hnames : n ∉ rest.map (fun p => p.1) ∧ (rest.map (fun p => p.1)).Nodup := by
      simp only [List.map_cons, List.nodup_cons] at hnodup
      exact hnodup
    have hser : entrySer ((n, vts, w) :: rest) ++ [Tok.rparen] =
        .lparen :: .ident n :: (vts ++ .rparen :: (entrySer rest ++ [.rparen])) := by
      simp [entrySer]
    have hcond : ∀ q ∈ rest, ∃ ftq, lookupStr fts q.1 = some ftq ∧
        lookupStr (updateStr fvs n w) q.1 = some (zeroVal ftq) ∧
        ∀ fuel rest2, 3 * q.2.1.length + 3 ≤ fuel →
          read fuel (q.2.1 ++ rest2) (.mk ftq (zeroVal ftq)) = .ok (q.2.2, rest2) := by
      intro q hq
      obtain ⟨ftq, h1, h2, h3⟩ := hwf q (List.mem_cons_of_mem _ hq)
      refine ⟨ftq, h1, ?_, h3⟩
      rw [lookup_update_ne fvs n q.1 w ?_]
      · exact h2
      · intro hcontra
        exact hnames.1 (hcontra ▸ List.mem_map_of_mem (fun p => p.1) hq)
    rw [hser]
    rw [readRec_entry_step g fts fvs n ft (zeroVal ft) vts w
      (entrySer rest ++ [Tok.rparen]) hlft hlfv
      (hread g (Tok.rparen :: (entrySer rest ++ [Tok.rparen]))
        (by show 3 * vts.length + 3 ≤ g; omega))]
    rw [ih (updateStr fvs n w) g (by omega) hnames.2 hcond]
    rfl

/-- C8 (amended): record decoding is order-independent for field-entry
lists (without the spurious leading type atom of the spec's example,
which does not decode at all, see the counterexample): for every
record destination, every list of entries with pairwise-distinct field
names, each naming a field of the record, and each carrying a complete
value encoding that decodes to some value from a fresh field, every
permutation of the entry list decodes into the same record. Entry
lists with duplicate names are excluded: the loop's last-write-wins
behavior makes their order significant. -/
theorem record_decode_order_independent (fts : List (String × Ty))
    (es es2 : List (String × List Tok × Val))
    (hperm : es.Perm es2)
    (hnodup : (es.map (fun p => p.1)).Nodup)
    (hwf : ∀ p ∈ es, ∃ ft, lookupStr fts p.1 = some ft ∧
      ∀ fuel rest, 3 * p.2.1.length + 3 ≤ fuel →
        read fuel (p.2.1 ++ rest) (.mk ft (zeroVal ft)) = .ok (p.2.2, rest)) :
    Unmarshal (.lparen :: (entrySer es ++ [.rparen])) (.struct fts)
      (.vstruct (zeroFields fts)) =
    Unmarshal (.lparen :: (entrySer es2 ++ [.rparen])) (.struct fts)
      (.vstruct (zeroFields fts)) := by
  have eval : ∀ es0 : List (String × List Tok × Val),
      (es0.map (fun p => p.1)).Nodup →
      (∀ p ∈ es0, ∃ ft, lookupStr fts p.1 = some ft ∧
        ∀ fuel rest, 3 * p.2.1.length + 3 ≤ fuel →
          read fuel (p.2.1 ++ rest) (.mk ft (zeroVal ft)) = .ok (p.2.2, rest)) →
      Unmarshal (.lparen :: (entrySer es0 ++ [.rparen])) (.struct fts)
        (.vstruct (zeroFields fts)) =
        .ok (.vstruct (applyEntries (zeroFields fts) es0)) := by
    intro es0 hnd hw
    simp only [Unmarshal]
    have hFl : fuelFor (.lparen :: (entrySer es0 ++ [.rparen])) =
        (3 * (entrySer es0).length + 8) + 1 := by
      simp [fuelFor]
      omega
    have hcond : ∀ q ∈ es0, ∃ ftq, lookupStr fts q.1 = some ftq ∧
        lookupStr (zeroFields fts) q.1 = some (zeroVal ftq) ∧
        ∀ fuel rest2, 3 * q.2.1.length + 3 ≤ fuel →
          read fuel (q.2.1 ++ rest2) (.mk ftq (zeroVal ftq)) = .ok (q.2.2, rest2) := by
      intro q hq
      obtain ⟨ftq, h1, h3⟩ := hw q hq
      refine ⟨ftq, h1, ?_, h3⟩
      rw [lookup_zeroFields, h1]
      rfl
    rw [hFl]
    simp only [read]
    rw [show 3 * (entrySer es0).length + 8 = (3 * (entrySer es0).length + 7) + 1 from rfl]
    simp only [readList]
    rw [readRec_entries fts es0 (zeroFields fts) (3 * (entrySer es0).length + 7)
      (by omega) hnd hcond]
  have hwf2 : ∀ p ∈ es2, ∃ ft, lookupStr fts p.1 = some ft ∧
      ∀ fuel rest, 3 * p.2.1.length + 3 ≤ fuel →
        read fuel (p.2.1 ++ rest) (.mk ft (zeroVal ft)) = .ok (p.2.2, rest) := by
    intro q hq
    exact hwf q (hperm.mem_iff.mpr hq)
  rw [eval es hnodup hwf,
    eval es2 (((hperm.map (fun p => p.1)).nodup_iff).mp hnodup) hwf2,
    applyEntries_perm hperm hnodup (zeroFields fts)]

/-- Witness for record order independence: a two-entry integer record
with the entries swapped. -/
theorem record_decode_order_independent_witness :
    (([("x", ([Tok.int 1] : List Tok), Val.vint 1),
       ("y", [Tok.int 2], Val.vint 2)].map (fun p => p.1)).Nodup) ∧
    Unmarshal (.lparen :: (entrySer [("x", [.int 1], .vint 1), ("y", [.int 2], .vint 2)]
        ++ [.rparen]))
      (.struct [("x", .int), ("y", .int)])
      (.vstruct (zeroFields [("x", .int), ("y", .int)])) =
    Unmarshal (.lparen :: (entrySer [("y", [.int 2], .vint 2), ("x", [.int 1], .vint 1)]
        ++ [.rparen]))
      (.struct [("x", .int), ("y", .int)])
      (.vstruct (zeroFields [("x", .int), ("y", .int)])) :=
  ⟨by decide,
    record_decode_order_independent [("x", .int), ("y", .int)]
      [("x", [.int 1], .vint 1), ("y", [.int 2], .vint 2)]
      [("y", [.int 2], .vint 2), ("x", [.int 1], .vint 1)]
      (List.Perm.swap ("y", [Tok.int 2], Val.vint 2) ("x", [Tok.int 1], Val.vint 1) [])
      (by decide)
      (by
        intro p hp
        simp only [List.mem_cons, List.not_mem_nil, or_false] at hp
        rcases hp with rfl | rfl
        · refine ⟨.int, rfl, ?_⟩
          intro fuel rest hf
          obtain ⟨g, rfl⟩ : ∃ g, fuel = g + 1 := ⟨fuel - 1, by omega⟩
          rfl
        · refine ⟨.int, rfl, ?_⟩
          intro fuel rest hf
          obtain ⟨g, rfl⟩ : ∃ g, fuel = g + 1 := ⟨fuel - 1, by omega⟩
          rfl)⟩

end Sexpr
